import Mathlib

/-!
Shallow embedding of the luci/gae datastore decorators and utilities:

* `service/datastore/batcher.go` — the batching decorator (`batchFilter`):
  `batchParallel` (multi-key group splitting used by `GetMulti`, `PutMulti`,
  `DeleteMulti`) and the query batching loop in `Run`;
* `filter/txndefer/filter.go` — the deferred-callback decorator
  (`Defer`, `txnState`, `filteredDS.RunInTransaction`);
* `service/datastore/dropped_arg_tracker.go` (and its newer generation) —
  `DroppedArgTracker` (`MarkForRemoval`, `mustCompress`, `DropKeys`,
  `OriginalIndex`).

Pieces of the repository that live outside these files (the inner backend,
the upstream transaction retry loop, cursor plumbing) are modelled from the
spec, and are marked as such in their doc comments.
-/

namespace GaeBatcher

/-- The group layout computed by the loop in `batchFilter.batchParallel`
(batcher.go lines 200-214): starting at `offset` with `count` elements
remaining, emit `(offset, size)` pairs with `size = min batch remaining`.
The Go loop is only entered with `batch > 0`; the `0 < batch` guard here
makes the recursion total without changing any reachable behaviour. -/
def batchSpansFuel : Nat → Nat → Nat → Nat → List (Nat × Nat)
  | 0, _, _, _ => []
  | fuel + 1, batch, offset, count =>
    if 0 < batch ∧ 0 < count then
      (offset, min batch count) ::
        batchSpansFuel fuel batch (offset + min batch count) (count - min batch count)
    else []

def batchSpans (batch : Nat) (offset count : Nat) : List (Nat × Nat) :=
  batchSpansFuel count batch offset count

theorem batchSpansFuel_count_zero (fuel batch offset : Nat) :
    batchSpansFuel fuel batch offset 0 = [] := by
  cases fuel <;> simp [batchSpansFuel]

theorem batchSpansFuel_congr (batch : Nat) :
    ∀ fuel₁ fuel₂ count offset, count ≤ fuel₁ → count ≤ fuel₂ →
      batchSpansFuel fuel₁ batch offset count = batchSpansFuel fuel₂ batch offset count := by
  intro fuel₁
  induction fuel₁ with
  | zero =>
    intro fuel₂ count offset h1 _
    have : count = 0 := Nat.le_zero.mp h1
    subst this
    rw [batchSpansFuel_count_zero, batchSpansFuel_count_zero]
  | succ fuel ih =>
    intro fuel₂ count offset h1 h2
    rcases Nat.eq_zero_or_pos count with hc | hc
    · subst hc
      rw [batchSpansFuel_count_zero, batchSpansFuel_count_zero]
    · rcases Nat.exists_eq_succ_of_ne_zero (by omega : fuel₂ ≠ 0) with ⟨f₂, hf₂⟩
      subst hf₂
      by_cases hcond : 0 < batch ∧ 0 < count
      · have hmin : 0 < min batch count := lt_min hcond.1 hcond.2
        simp only [batchSpansFuel, if_pos hcond]
        exact congrArg _ (ih _ _ _ (by omega) (by omega))
      · simp only [batchSpansFuel, if_neg hcond]

theorem batchSpansFuel_fuel_irrelevant (batch fuel count offset : Nat) (hle : count ≤ fuel) :
    batchSpansFuel fuel batch offset count = batchSpans batch offset count :=
  batchSpansFuel_congr batch fuel count count offset hle le_rfl

/-- `batchFilter.batchParallel` (batcher.go lines 181-215) reduced to the
group plan it dispatches: `Except.error` models the
"batching is disabled, and size exceeds maximum" error return, `Except.ok`
carries the list of `(offset, count)` groups handed to the callback.
`batch` is a Go `int`, so it is embedded as `Int` (the `batch <= 0` branch
is reachable with unset/negative constraints). -/
def batchPlan (batchingSpecified batchingEnabled : Bool)
    (count : Nat) (batch : Int) : Except String (List (Nat × Nat)) :=
  if batch ≤ 0 then Except.ok [(0, count)]
  else
    let batching := (batchingEnabled || !batchingSpecified) && decide (batch > 0)
    if !batching then
      if batch > 0 && (count : Int) > batch then
        Except.error "batching is disabled, and size exceeds maximum"
      else Except.ok [(0, count)]
    else Except.ok (batchSpans batch.toNat 0 count)

theorem batchSpans_zero (batch offset : Nat) : batchSpans batch offset 0 = [] := rfl

theorem batchSpans_pos (batch offset count : Nat) (hb : 0 < batch) (hc : 0 < count) :
    batchSpans batch offset count =
      (offset, min batch count) ::
        batchSpans batch (offset + min batch count) (count - min batch count) := by
  rcases Nat.exists_eq_succ_of_ne_zero (Nat.pos_iff_ne_zero.mp hc) with ⟨c, hcc⟩
  subst hcc
  rw [batchSpans]
  simp only [batchSpansFuel, if_pos (And.intro hb hc)]
  have hmin : 0 < min batch (c + 1) := lt_min hb hc
  exact congrArg _ (batchSpansFuel_fuel_irrelevant batch c _ _ (by omega))

/-- Number of groups: `⌈count / batch⌉` in its `(count + batch - 1) / batch` form. -/
theorem batchSpans_length (batch : Nat) (hb : 0 < batch) :
    ∀ count offset, (batchSpans batch offset count).length = (count + batch - 1) / batch := by
  intro count
  induction count using Nat.strong_induction_on with
  | _ count ih =>
    intro offset
    rcases Nat.eq_zero_or_pos count with hc | hc
    · subst hc
      rw [batchSpans_zero]
      simp [Nat.div_eq_of_lt (by omega : batch - 1 < batch)]
    · rw [batchSpans_pos batch offset count hb hc]
      have hmin : 0 < min batch count := lt_min hb hc
      have hlt : count - min batch count < count := by omega
      rw [List.length_cons, ih _ hlt]
      have hrhs : count + batch - 1 = (count - 1) + batch := by omega
      rw [hrhs, Nat.add_div_right _ hb]
      have hmain : (count - min batch count + batch - 1) / batch = (count - 1) / batch := by
        rcases le_or_lt batch count with hle | hgt
        · have h1 : min batch count = batch := min_eq_left hle
          have h2 : count - min batch count + batch - 1 = count - 1 := by omega
          rw [h2]
        · have h1 : min batch count = count := min_eq_right (le_of_lt hgt)
          have h2 : count - min batch count + batch - 1 = batch - 1 := by omega
          rw [h2, Nat.div_eq_of_lt (by omega), Nat.div_eq_of_lt (by omega)]
      rw [hmain]

/-- The groups tile `[offset, offset + count)` contiguously, in order. -/
theorem batchSpans_flatten (batch : Nat) (hb : 0 < batch) :
    ∀ count offset,
      (batchSpans batch offset count).flatMap (fun s => List.range' s.1 s.2) =
        List.range' offset count := by
  intro count
  induction count using Nat.strong_induction_on with
  | _ count ih =>
    intro offset
    rcases Nat.eq_zero_or_pos count with hc | hc
    · subst hc
      rw [batchSpans_zero]
      simp
    · rw [batchSpans_pos batch offset count hb hc]
      have hmin : 0 < min batch count := lt_min hb hc
      have hlt : count - min batch count < count := by omega
      rw [List.flatMap_cons, ih _ hlt]
      have := List.range'_append offset (min batch count) (count - min batch count) 1
      simp only [Nat.one_mul] at this
      rw [this]
      congr 1
      omega

/-- Concatenation, in dispatch order, of the per-group positional results.
For a group `(offset, size)` the inner backend produces one result per
local index `idx` of the slice it was handed, and the decorator's callback
re-indexes it as `offset + idx` (batcher.go lines 157-179); `res i` is the
inner backend's result for the element at original position `i`. -/
def concatGroupResults {R : Type} (res : Nat → R) (spans : List (Nat × Nat)) :
    List (Nat × R) :=
  spans.flatMap (fun s => (List.range s.2).map (fun idx => (s.1 + idx, res (s.1 + idx))))

theorem concatGroupResults_batchSpans {R : Type} (res : Nat → R) (G N : Nat) (hG : 0 < G) :
    concatGroupResults res (batchSpans G 0 N) = (List.range N).map (fun i => (i, res i)) := by
  unfold concatGroupResults
  have hkey : ∀ s : Nat × Nat,
      (List.range s.2).map (fun idx => (s.1 + idx, res (s.1 + idx))) =
        (List.range' s.1 s.2).map (fun i => (i, res i)) := by
    intro s
    rw [List.range'_eq_map_range, List.map_map]
    rfl
  calc (batchSpans G 0 N).flatMap
        (fun s => (List.range s.2).map (fun idx => (s.1 + idx, res (s.1 + idx))))
      = (batchSpans G 0 N).flatMap
          (fun s => (List.range' s.1 s.2).map (fun i => (i, res i))) := by
        exact List.flatMap_congr (fun s _ => hkey s)
    _ = ((batchSpans G 0 N).flatMap (fun s => List.range' s.1 s.2)).map
          (fun i => (i, res i)) := (List.map_flatMap _ _ _).symm
    _ = (List.range' 0 N).map (fun i => (i, res i)) := by
        rw [batchSpans_flatten G hG N 0]
    _ = (List.range N).map (fun i => (i, res i)) := by rw [← List.range_eq_range']

/-- C1: for every batch of `N` elements and every maximum group size `G > 0`,
with batching on (the default), `batchFilter.batchParallel` dispatches exactly
`⌈N/G⌉` contiguous groups, and concatenating the per-group positional results
(each group's callback index shifted by the group's offset) reconstructs the
original-order `N`-length result array. -/
theorem batchParallel_ceil_groups_and_reassembly {R : Type} (N G : Nat) (hG : 0 < G)
    (bspec ben : Bool) (hbatching : ben = true ∨ bspec = false) (res : Nat → R) :
    batchPlan bspec ben N (G : Int) = Except.ok (batchSpans G 0 N) ∧
    (batchSpans G 0 N).length = (N + G - 1) / G ∧
    concatGroupResults res (batchSpans G 0 N) = (List.range N).map (fun i => (i, res i)) := by
  refine ⟨?_, batchSpans_length G hG N 0, concatGroupResults_batchSpans res G N hG⟩
  have hGpos : (0 : Int) < (G : Int) := by exact_mod_cast hG
  have h1 : ¬ ((G : Int) ≤ 0) := not_le.mpr hGpos
  have hbat : (ben || !bspec) = true := by
    rcases hbatching with h | h <;> simp [h]
  unfold batchPlan
  rw [if_neg h1]
  simp [hbat, hGpos]

theorem batchParallel_ceil_groups_and_reassembly_witness :
    (0 < 2 ∧ (false = true ∨ false = false)) ∧
    (batchPlan false false 5 ((2 : Nat) : Int) = Except.ok (batchSpans 2 0 5) ∧
     (batchSpans 2 0 5).length = (5 + 2 - 1) / 2 ∧
     concatGroupResults (fun i => 10 * i) (batchSpans 2 0 5) =
       (List.range 5).map (fun i => (i, 10 * i))) :=
  ⟨⟨by decide, Or.inr rfl⟩,
    batchParallel_ceil_groups_and_reassembly 5 2 (by decide) false false (Or.inr rfl)
      (fun i => 10 * i)⟩

/-- C9 (amended): when the configured maximum group size is unset or
non-positive, `batchParallel` returns immediately with the whole batch as a
single group, performing no size check of any kind (batcher.go lines
182-185); the "size exceeds maximum" error exists only on the
explicitly-disabled-batching path with a positive group size. -/
theorem batchParallel_nonpositive_single_group (bspec ben : Bool) (count : Nat)
    (batch : Int) (hb : batch ≤ 0) :
    batchPlan bspec ben count batch = Except.ok [(0, count)] := by
  unfold batchPlan
  rw [if_pos hb]

theorem batchParallel_nonpositive_single_group_witness :
    ((0 : Int) ≤ 0) ∧ batchPlan false false 7 0 = Except.ok [(0, 7)] :=
  ⟨le_rfl, batchParallel_nonpositive_single_group false false 7 0 le_rfl⟩

/-- C9 counterexample: with the group size unset (`0`) and a batch of `N = 5`
elements — larger than any plausible hard backend maximum such as `3` — the
decorator silently submits the oversized batch as one group and never
returns an error, contradicting the claim that it errors when `N` exceeds a
hard backend maximum. -/
theorem batchParallel_nonpositive_never_errors_cx :
    batchPlan false false 5 0 = Except.ok [(0, 5)] ∧
    batchPlan false false 5 0 ≠
      Except.error "batching is disabled, and size exceeds maximum" ∧
    (3 : Nat) < 5 := by
  refine ⟨rfl, ?_, by decide⟩
  intro h
  simp [batchPlan] at h

/-- `batchFilter.GetMulti` (batcher.go lines 157-163): each dispatched group
receives the key slice `keys[offset : offset+count]` but the WHOLE `meta`
array, and the decorator's callback shifts the inner backend's positional
index by the group's offset. The inner backend is modelled from the spec
(`GetMulti(keys, meta) → per-index(value | NotFound | error)`, one result
per input): `f` computes the result for one key/metadata pair, the key at
backend-local index `idx` is `keys[offset+idx]`, and — because the code
passes `meta` unsliced — the metadata entry the backend reads at local
index `idx` is `meta[idx]` (with the permissive none-past-the-end lookup of
`MultiMetaGetter.GetSingle`). -/
def getMultiResults {K M R : Type} (f : Option K → Option M → R)
    (keys : List K) (meta : List M) (batch : Nat) : List (Nat × R) :=
  (batchSpans batch 0 keys.length).flatMap (fun s =>
    (List.range s.2).map (fun idx => (s.1 + idx, f keys[s.1 + idx]? meta[idx]?)))

/-- C3 failing input, evaluated: four keys, aligned metadata `[20,21,22,23]`,
maximum group size `2`. The decorator dispatches groups at offsets `0` and
`2`; the second group's backend reads `meta[0]`/`meta[1]` for the keys at
original indices `2`/`3`, so the result delivered at original index `2`
pairs key `12` with metadata `20` instead of its own metadata `22`. -/
theorem getMulti_meta_misaligned_eval :
    getMultiResults (fun k m => (k, m)) [10, 11, 12, 13] [20, 21, 22, 23] 2 =
      [(0, (some 10, some 20)), (1, (some 11, some 21)),
       (2, (some 12, some 20)), (3, (some 13, some 21))] ∧
    (some (12 : Nat), some (20 : Nat)) ≠ (some 12, some 22) := by
  constructor
  · rfl
  · decide

/-- One run of the query batching loop in `batchFilter.Run` (batcher.go
lines 89-153) for a caller query with no limit and batch size `bs`,
against an inner backend modelled from the spec: the store holds `M`
matching records; an inner `Run` issued from start position `p` (decoded
from the cursor) with limit `bs` invokes the callback once per record
`p, p+1, ...` in order, at most `bs` of them, and `getCursor` at a record
returns the position just after it. The loop grabs a cursor exactly when a
pass delivers `bs` records (`count >= bs`), re-issues the query from that
cursor, and stops after the first pass that ends with no cursor. The
result is (number of inner `Run` calls, delivered record positions in
callback order). `fuel` only bounds the number of passes — each pass with
a cursor strictly advances `p`, so `M + 1` units always suffice. -/
def runBatchesFuel : Nat → Nat → Nat → Nat → Nat × List Nat
  | 0, _, _, _ => (0, [])
  | fuel + 1, bs, M, p =>
    if 0 < bs ∧ p + bs ≤ M then
      let r := runBatchesFuel fuel bs M (p + bs)
      (r.1 + 1, List.range' p bs ++ r.2)
    else (1, List.range' p (M - p))

def runBatches (bs M p : Nat) : Nat × List Nat := runBatchesFuel (M + 1) bs M p

theorem runBatchesFuel_eval :
    ∀ fuel bs M p, 0 < bs → M - p < fuel →
      runBatchesFuel fuel bs M p = ((M - p) / bs + 1, List.range' p (M - p)) := by
  intro fuel
  induction fuel with
  | zero =>
    intro bs M p _ hfuel
    omega
  | succ fuel ih =>
    intro bs M p hbs hfuel
    by_cases hcond : p + bs ≤ M
    · have hrec := ih bs M (p + bs) hbs (by omega)
      simp only [runBatchesFuel, if_pos (And.intro hbs hcond), hrec]
      refine Prod.ext ?_ ?_
      · show (M - (p + bs)) / bs + 1 + 1 = (M - p) / bs + 1
        have h1 : M - p ≥ bs := by omega
        have h2 : M - (p + bs) = M - p - bs := by omega
        rw [h2, ← Nat.div_eq_sub_div hbs h1]
      · show List.range' p bs ++ List.range' (p + bs) (M - (p + bs)) = List.range' p (M - p)
        have happ := List.range'_append p bs (M - (p + bs)) 1
        simp only [Nat.one_mul] at happ
        rw [happ]
        congr 1
        omega
    · have hneg : ¬ (0 < bs ∧ p + bs ≤ M) := fun hand => hcond hand.2
      simp only [runBatchesFuel, if_neg hneg]
      have h1 : M - p < bs := by omega
      rw [Nat.div_eq_of_lt h1]

/-- C2 (amended): for a query with no caller limit matching `M` records and
batch size `B > 0`, the batching decorator issues exactly `⌊M/B⌋ + 1`
underlying `Run` calls — that is `⌈M/B⌉` calls when `B` does not divide `M`
(the last pass observes both the final records and the end of results), and
`⌈M/B⌉ + 1` calls, the extra one a terminal pass observing no records,
exactly when `B` divides `M` (including `M = 0`) — and the records
delivered to the caller's callback equal the unbatched result set in the
same order. -/
theorem queryBatch_calls_and_order {R : Type} (M bs : Nat) (hbs : 0 < bs)
    (record : Nat → R) :
    (runBatches bs M 0).1 = M / bs + 1 ∧
    (runBatches bs M 0).2 = List.range M ∧
    (runBatches bs M 0).2.map record = (List.range M).map record := by
  have h := runBatchesFuel_eval (M + 1) bs M 0 hbs (by omega)
  unfold runBatches
  rw [h]
  refine ⟨by simp, ?_, ?_⟩ <;> simp [← List.range_eq_range']

theorem queryBatch_calls_and_order_witness :
    (0 < 2) ∧
    ((runBatches 2 5 0).1 = 5 / 2 + 1 ∧
     (runBatches 2 5 0).2 = List.range 5 ∧
     (runBatches 2 5 0).2.map (fun i => i + 100) = (List.range 5).map (fun i => i + 100)) :=
  ⟨by decide, queryBatch_calls_and_order 5 2 (by decide) (fun i => i + 100)⟩

/-- C2 counterexample: with `M = 5` matching records and batch size `B = 2`,
the decorator issues `3` inner `Run` calls (passes of 2, 2 and 1 records;
the last pass delivers records, so there is no separate terminal call),
whereas the claim predicts `⌈5/2⌉ + 1 = 4` calls. -/
theorem queryBatch_calls_cx :
    (runBatches 2 5 0).1 = 3 ∧ (5 + 2 - 1) / 2 + 1 = 4 ∧ (3 : Nat) ≠ 4 := by
  decide

end GaeBatcher

namespace GaeTxnDefer

/-- A context value, reduced to what the deferred-callback decorator
touches: whether a transaction is active on it, and an opaque tag telling
contexts apart. -/
structure Ctx where
  inTxn : Bool
  tag : Nat
deriving DecidableEq

/-- `ds.WithoutTransaction` (modelled from the spec: callbacks "receive the
non-transactional version of the context initially passed to
RunInTransaction"): strips the transaction from a context. -/
def withoutTransaction (c : Ctx) : Ctx := { c with inTxn := false }

/-- One execution of the wrapped body inside `filteredDS.RunInTransaction`
(filter.go lines 89-93): the transactional context the inner implementation
passed to this attempt, the callbacks the body registered through `Defer`
in registration order, and the error the body returned. The upstream retry
loop is modelled from the spec (retries belong to a wrapping caller, not to
this decorator): the inner `RunInTransaction` runs the wrapped body once
per attempt, in order, and reports the last attempt's error. -/
structure Attempt (C E : Type) where
  ctx : Ctx
  regs : List C
  err : Option E
deriving DecidableEq

/-- Contents of the shared `txnState.cbs` after the inner call returns:
every attempt begins with `state.reset()` (which empties the slice,
filter.go lines 62-66) and then `deferCB` appends its registrations
(filter.go lines 68-72), so only the last attempt's registrations
survive. -/
def txnStateAfter {C E : Type} (attempts : List (Attempt C E)) : List C :=
  attempts.foldl (fun _ a => a.regs) []

/-- The `noTxnCtx` variable after the inner call returns: every attempt
overwrites it with the non-transactional view of its own context
(filter.go line 90). -/
def noTxnCtxAfter {C E : Type} (attempts : List (Attempt C E)) : Ctx :=
  attempts.foldl (fun _ a => withoutTransaction a.ctx) ⟨false, 0⟩

/-- The error the inner `RunInTransaction` reports: the last attempt's. -/
def finalErr {C E : Type} (attempts : List (Attempt C E)) : Option E :=
  (attempts.getLast?).elim none (fun a => a.err)

/-- `txnState.execCBs` (filter.go lines 74-80): runs the registered
callbacks sequentially in reverse registration order, each against the same
context; rendered as the (callback, context) invocations in execution
order. -/
def execCBs {C : Type} (cbs : List C) (ctx : Ctx) : List (C × Ctx) :=
  cbs.reverse.map (fun cb => (cb, ctx))

/-- `filteredDS.RunInTransaction` (filter.go lines 86-98): the returned
error, and the callback invocations performed after the inner call
returns — `execCBs` against the captured `noTxnCtx` when the error is nil,
none otherwise. -/
def runInTransactionFiltered {C E : Type} (attempts : List (Attempt C E)) :
    Option E × List (C × Ctx) :=
  match finalErr attempts with
  | none => (none, execCBs (txnStateAfter attempts) (noTxnCtxAfter attempts))
  | some e => (some e, [])

theorem txnStateAfter_concat {C E : Type} (pre : List (Attempt C E)) (a : Attempt C E) :
    txnStateAfter (pre ++ [a]) = a.regs := by
  unfold txnStateAfter
  rw [List.foldl_append]
  rfl

theorem noTxnCtxAfter_concat {C E : Type} (pre : List (Attempt C E)) (a : Attempt C E) :
    noTxnCtxAfter (pre ++ [a]) = withoutTransaction a.ctx := by
  unfold noTxnCtxAfter
  rw [List.foldl_append]
  rfl

theorem finalErr_concat {C E : Type} (pre : List (Attempt C E)) (a : Attempt C E) :
    finalErr (pre ++ [a]) = a.err := by
  unfold finalErr
  rw [List.getLast?_concat]
  rfl

/-- C4: when the transaction body run by the inner implementation ends
with no error, every callback registered through `Defer` during the (last)
body execution is invoked, sequentially, in reverse registration order,
against the non-transactional view of the context that attempt started
with; when `RunInTransaction` returns a non-nil error, no registered
callback is invoked. -/
theorem txndefer_success_reverse_failure_none {C E : Type}
    (pre : List (Attempt C E)) (a : Attempt C E) :
    (a.err = none →
      runInTransactionFiltered (pre ++ [a]) =
        (none, a.regs.reverse.map (fun cb => (cb, withoutTransaction a.ctx))) ∧
      ∀ p ∈ (runInTransactionFiltered (pre ++ [a])).2, p.2.inTxn = false) ∧
    (∀ e, a.err = some e → runInTransactionFiltered (pre ++ [a]) = (some e, [])) := by
  constructor
  · intro hnone
    have heq : runInTransactionFiltered (pre ++ [a]) =
        (none, a.regs.reverse.map (fun cb => (cb, withoutTransaction a.ctx))) := by
      unfold runInTransactionFiltered
      rw [finalErr_concat, hnone, txnStateAfter_concat, noTxnCtxAfter_concat]
      rfl
    refine ⟨heq, ?_⟩
    rw [heq]
    intro p hp
    rcases List.mem_map.mp hp with ⟨cb, _, hcb⟩
    rw [← hcb]
    rfl
  · intro e he
    unfold runInTransactionFiltered
    rw [finalErr_concat, he]

theorem txndefer_success_reverse_failure_none_witness :
    (runInTransactionFiltered [Attempt.mk ⟨true, 5⟩ [1, 2] (none : Option Nat)] =
      (none, [(2, Ctx.mk false 5), (1, Ctx.mk false 5)])) ∧
    (runInTransactionFiltered [Attempt.mk ⟨true, 5⟩ [1, 2] (some (9 : Nat))] =
      (some 9, [])) := by
  constructor
  · have h := (txndefer_success_reverse_failure_none
      ([] : List (Attempt Nat Nat)) (Attempt.mk ⟨true, 5⟩ [1, 2] none)).1 rfl
    exact h.1.trans (by decide)
  · exact (txndefer_success_reverse_failure_none
      ([] : List (Attempt Nat Nat)) (Attempt.mk ⟨true, 5⟩ [1, 2] (some 9))).2 9 rfl

/-- C5: when a wrapping retry loop runs the body more than once and the
final attempt succeeds, exactly the callbacks registered during the final
attempt run, each exactly once; callbacks registered only during earlier,
failed attempts never run. -/
theorem txndefer_retry_only_final_attempt {C E : Type} [DecidableEq C]
    (pre : List (Attempt C E)) (a : Attempt C E)
    (_hpre : pre ≠ []) (hsucc : a.err = none) (hnodup : a.regs.Nodup) :
    ((runInTransactionFiltered (pre ++ [a])).2.map Prod.fst = a.regs.reverse) ∧
    (∀ cb ∈ a.regs,
      ((runInTransactionFiltered (pre ++ [a])).2.map Prod.fst).count cb = 1) ∧
    (∀ cb, cb ∉ a.regs →
      cb ∉ (runInTransactionFiltered (pre ++ [a])).2.map Prod.fst) := by
  have heq : runInTransactionFiltered (pre ++ [a]) =
      (none, execCBs a.regs (noTxnCtxAfter (pre ++ [a]))) := by
    unfold runInTransactionFiltered
    rw [finalErr_concat, hsucc, txnStateAfter_concat]
  have hmap : (runInTransactionFiltered (pre ++ [a])).2.map Prod.fst = a.regs.reverse := by
    rw [heq]
    show List.map Prod.fst
        (List.map (fun cb => (cb, noTxnCtxAfter (pre ++ [a]))) a.regs.reverse) =
      a.regs.reverse
    rw [List.map_map]
    exact List.map_id'' (fun _ => rfl) _
  refine ⟨hmap, ?_, ?_⟩
  · intro cb hcb
    rw [hmap, List.count_reverse]
    exact List.count_eq_one_of_mem hnodup hcb
  · intro cb hcb
    rw [hmap, List.mem_reverse]
    exact hcb

theorem txndefer_retry_only_final_attempt_witness :
    (([Attempt.mk ⟨true, 1⟩ [10] (some (3 : Nat))] : List (Attempt Nat Nat)) ≠ [] ∧
     (none : Option Nat) = none ∧
     ([20, 21] : List Nat).Nodup) ∧
    ((runInTransactionFiltered
        ([Attempt.mk ⟨true, 1⟩ [10] (some 3),
          Attempt.mk ⟨true, 2⟩ [20, 21] none] : List (Attempt Nat Nat))).2.map Prod.fst =
      ([20, 21] : List Nat).reverse ∧
     (∀ cb ∈ ([20, 21] : List Nat),
       ((runInTransactionFiltered
          ([Attempt.mk ⟨true, 1⟩ [10] (some 3),
            Attempt.mk ⟨true, 2⟩ [20, 21] none] : List (Attempt Nat Nat))).2.map
          Prod.fst).count cb = 1) ∧
     (∀ cb, cb ∉ ([20, 21] : List Nat) →
       cb ∉ (runInTransactionFiltered
          ([Attempt.mk ⟨true, 1⟩ [10] (some 3),
            Attempt.mk ⟨true, 2⟩ [20, 21] none] : List (Attempt Nat Nat))).2.map
          Prod.fst)) :=
  ⟨⟨by decide, rfl, by decide⟩,
    txndefer_retry_only_final_attempt
      [Attempt.mk ⟨true, 1⟩ [10] (some 3)] (Attempt.mk ⟨true, 2⟩ [20, 21] none)
      (by decide) rfl (by decide)⟩

/-- `Defer` (filter.go lines 45-51): `ctx.Value(&ctxKey)` is the
transactional state installed by the decorator's `RunInTransaction`
(`lookup = some cbs`), or nothing when no transaction is active or the
filter is not installed (`lookup = none`); in the latter case `Defer`
panics — modelled as `Except.error` with the panic message — and otherwise
`txnState.deferCB` appends the callback. -/
def deferImpl {C : Type} (lookup : Option (List C)) (cb : C) : Except String (List C) :=
  match lookup with
  | none => Except.error "not a transactional context or no txndefer filter installed"
  | some cbs => Except.ok (cbs ++ [cb])

/-- C8: calling `Defer` on a context with no transactional state from this
decorator — no active transaction, or the filter not installed — is a
fatal usage error (a panic), never a silent no-op; with the state present
the callback is appended, not dropped. -/
theorem defer_panics_without_txn_state {C : Type} (cb : C) :
    deferImpl (none : Option (List C)) cb =
      Except.error "not a transactional context or no txndefer filter installed" ∧
    ∀ cbs : List C, deferImpl (some cbs) cb = Except.ok (cbs ++ [cb]) :=
  ⟨rfl, fun _ => rfl⟩

end GaeTxnDefer

namespace GaeDroppedArgTracker

/-- `sort.SearchInts(dat, x)` as `MarkForRemoval` uses it: on a sorted
slice, the smallest index whose element is at least `x` (the insertion
point), here computed as the length of the prefix of smaller elements. -/
def searchInts (dat : List Nat) (x : Nat) : Nat :=
  (dat.takeWhile (fun y => decide (y < x))).length

/-- `DroppedArgTracker.MarkForRemoval` of the newer generation (the one
that keeps the slice sorted and deduplicated instead of re-sorting in
`mustCompress`): if the slice is empty or the new index is bigger than the
current maximum it appends, otherwise it inserts at the `SearchInts`
position unless the index is already present. The second Go parameter `N`
only pre-sizes the backing array and has no observable effect on the
contents, so it is dropped here. -/
def markForRemoval (dat : List Nat) (originalIndex : Nat) : List Nat :=
  match dat.getLast? with
  | none => dat ++ [originalIndex]
  | some last =>
    if last < originalIndex then dat ++ [originalIndex]
    else
      let insIdx := searchInts dat originalIndex
      if dat[insIdx]? = some originalIndex then dat
      else dat.take insIdx ++ originalIndex :: dat.drop insIdx

/-- The ranges `(i, j)` passed to `include` by the loop in
`DroppedArgTracker.mustCompress`: starting from `prevDropped`, each marked
index `d` closes the pending run `[prevDropped, d)` (emitted only when
non-empty) and restarts it at `d + 1`; the final run `[prevDropped, N)` is
always emitted. -/
def compressRanges (dat : List Nat) (prevDropped N : Nat) : List (Nat × Nat) :=
  match dat with
  | [] => [(prevDropped, N)]
  | d :: rest =>
    (if prevDropped < d then [(prevDropped, d)] else []) ++ compressRanges rest (d + 1) N

/-- `DroppedArgTracker.mustCompress` (newer generation: the slice is
already sorted): with no marked index or `N = 0` it returns before calling
`init`/`include` (`Except.ok none`, the caller keeps its original arrays);
with the largest marked index at least `N` it panics (`Except.error`);
otherwise it emits the kept runs (`Except.ok (some ranges)`). -/
def mustCompress (dat : List Nat) (N : Nat) : Except String (Option (List (Nat × Nat))) :=
  match dat.getLast? with
  | none => Except.ok none
  | some largestDropIdx =>
    if N = 0 then Except.ok none
    else if N ≤ largestDropIdx then
      Except.error "DroppedArgTracker has out of bound index"
    else Except.ok (some (compressRanges dat 0 N))

/-- The Go slice expression `keys[i:j]`. -/
def slice {K : Type} (keys : List K) (i j : Nat) : List K := (keys.drop i).take (j - i)

/-- `DroppedArgTracker.DropKeys`: when `mustCompress` returns without
compressing, the original `keys` are returned unchanged; otherwise the
kept runs of `keys` are concatenated. -/
def dropKeys {K : Type} (dat : List Nat) (keys : List K) : Except String (List K) :=
  (mustCompress dat keys.length).map (fun ranges =>
    match ranges with
    | none => keys
    | some rs => rs.flatMap (fun r => slice keys r.1 r.2))

/-- `DroppedArgTracker.OriginalIndex` (newer generation, no sorting):
walks the marked indices in order, bumping the reduced index past every
marked slot it has passed. -/
def originalIndex (dat : List Nat) (reducedIndex : Nat) : Nat :=
  match dat with
  | [] => reducedIndex
  | missingKey :: rest =>
    if reducedIndex < missingKey then reducedIndex
    else originalIndex rest (reducedIndex + 1)

theorem sorted_le_getLast (dat : List Nat) (hs : List.Sorted (· < ·) dat) (x last : Nat)
    (hx : x ∈ dat) (hl : dat.getLast? = some last) : x ≤ last := by
  induction dat with
  | nil => cases hx
  | cons d rest ih =>
    cases rest with
    | nil =>
      simp only [List.getLast?_singleton, Option.some.injEq] at hl
      rcases List.mem_singleton.mp hx with h
      omega
    | cons r rest' =>
      rw [List.getLast?_cons_cons] at hl
      have hlast_mem : last ∈ r :: rest' := List.mem_of_mem_getLast? hl
      rcases List.mem_cons.mp hx with hxd | hxtail
      · subst hxd
        exact le_of_lt ((List.pairwise_cons.mp hs).1 last hlast_mem)
      · exact ih (List.pairwise_cons.mp hs).2 hxtail hl

theorem markForRemoval_sorted (dat : List Nat) (i : Nat)
    (hs : List.Sorted (· < ·) dat) : List.Sorted (· < ·) (markForRemoval dat i) := by
  cases hl : dat.getLast? with
  | none =>
    have hdat : dat = [] := List.getLast?_eq_none_iff.mp hl
    subst hdat
    simp [markForRemoval]
  | some last =>
    by_cases hlt : last < i
    · simp only [markForRemoval, hl, if_pos hlt]
      refine List.pairwise_append.mpr ⟨hs, List.pairwise_singleton _ _, ?_⟩
      intro a ha b hb
      rcases List.mem_singleton.mp hb with rfl
      exact lt_of_le_of_lt (sorted_le_getLast dat hs a last ha hl) hlt
    · have hile : i ≤ last := le_of_not_lt hlt
      have hsplit : dat.takeWhile (fun y => decide (y < i)) ++
          dat.dropWhile (fun y => decide (y < i)) = dat :=
        List.takeWhile_append_dropWhile _ dat
      have htake : dat.take (searchInts dat i) = dat.takeWhile (fun y => decide (y < i)) :=
        (List.prefix_iff_eq_take.mp (List.takeWhile_prefix _)).symm
      have hdrop : dat.drop (searchInts dat i) = dat.dropWhile (fun y => decide (y < i)) := by
        have h2 := List.drop_left (dat.takeWhile (fun y => decide (y < i)))
          (dat.dropWhile (fun y => decide (y < i)))
        rw [hsplit] at h2
        exact h2
      have hne : dat.dropWhile (fun y => decide (y < i)) ≠ [] := by
        intro h0
        have hdat : dat.takeWhile (fun y => decide (y < i)) = dat := by
          conv_rhs => rw [← hsplit, h0]
          rw [List.append_nil]
        have hlast_mem : last ∈ dat := List.mem_of_mem_getLast? hl
        have hmem2 : last ∈ dat.takeWhile (fun y => decide (y < i)) := by
          rw [hdat]
          exact hlast_mem
        have := List.mem_takeWhile_imp hmem2
        simp only [decide_eq_true_eq] at this
        omega
      have hh := List.head_dropWhile_not (fun y => decide (y < i)) dat hne
      rcases hht : dat.dropWhile (fun y => decide (y < i)) with _ | ⟨h, t⟩
      · exact absurd hht hne
      · have hhead : (dat.dropWhile (fun y => decide (y < i))).head hne = h := by
          simp [hht]
        rw [hhead] at hh
        have hih : i ≤ h := by
          simp only [decide_eq_false_iff_not, not_lt] at hh
          exact hh
        have hgetk : dat[searchInts dat i]? = some h := by
          have h2 := @List.getElem?_append_right Nat
            (dat.takeWhile (fun y => decide (y < i)))
            (dat.dropWhile (fun y => decide (y < i)))
            ((dat.takeWhile (fun y => decide (y < i))).length) le_rfl
          rw [hsplit, Nat.sub_self, hht] at h2
          simpa [searchInts] using h2
        have hsorted_dropWhile : List.Sorted (· < ·) (h :: t) := by
          rw [← hht]
          exact List.Pairwise.sublist (List.dropWhile_sublist _) hs
        by_cases heq : h = i
        · simp only [markForRemoval, hl, if_neg hlt, hgetk, heq, if_pos rfl]
          exact hs
        · have hcond : ¬ (dat[searchInts dat i]? = some i) := by
            rw [hgetk]
            intro hcontra
            exact heq (Option.some.injEq _ _ ▸ hcontra)
          simp only [markForRemoval, hl, if_neg hlt, if_neg hcond]
          rw [htake, hdrop, hht]
          refine List.pairwise_append.mpr ⟨?_, ?_, ?_⟩
          · exact List.Pairwise.sublist (List.takeWhile_sublist _) hs
          · refine List.pairwise_cons.mpr ⟨?_, hsorted_dropWhile⟩
            intro b hb
            rcases List.mem_cons.mp hb with rfl | hbt
            · omega
            · have : h < b := (List.pairwise_cons.mp hsorted_dropWhile).1 b hbt
              omega
          · intro a ha b hb
            have hai : a < i := by
              have := List.mem_takeWhile_imp ha
              simpa using this
            rcases List.mem_cons.mp hb with rfl | hb'
            · exact hai
            · rcases List.mem_cons.mp hb' with rfl | hbt
              · omega
              · have : h < b := (List.pairwise_cons.mp hsorted_dropWhile).1 b hbt
                omega

theorem markForRemoval_foldl_sorted (ops : List Nat) :
    ∀ start, List.Sorted (· < ·) start →
      List.Sorted (· < ·) (ops.foldl markForRemoval start) := by
  induction ops with
  | nil => intro start hstart; exact hstart
  | cons op rest ih =>
    intro start hstart
    exact ih (markForRemoval start op) (markForRemoval_sorted start op hstart)

theorem filter_not_mem_nil (l : List Nat) :
    l.filter (fun x => decide (x ∉ ([] : List Nat))) = l := by
  refine List.filter_eq_self.mpr ?_
  intro x _
  simp

theorem filter_range'_cons (prev N d : Nat) (rest : List Nat)
    (hlow : prev ≤ d) (hhigh : d < N) (hrest : ∀ x ∈ rest, d < x) :
    (List.range' prev (N - prev)).filter (fun x => decide (x ∉ d :: rest)) =
      List.range' prev (d - prev) ++
        (List.range' (d + 1) (N - (d + 1))).filter (fun x => decide (x ∉ rest)) := by
  have happ := List.range'_append prev (d - prev) (N - d) 1
  simp only [Nat.one_mul] at happ
  rw [(by omega : prev + (d - prev) = d)] at happ
  rw [(by omega : N - d + (d - prev) = N - prev)] at happ
  have hsucc : List.range' d (N - d) = d :: List.range' (d + 1) (N - (d + 1)) := by
    rw [(by omega : N - d = (N - (d + 1)) + 1), List.range'_succ]
  rw [← happ, hsucc, List.filter_append, List.filter_cons]
  have hd_mem : (decide (d ∉ d :: rest)) = false := by simp
  rw [hd_mem]
  simp only [Bool.false_eq_true, if_false]
  congr 1
  · refine List.filter_eq_self.mpr ?_
    intro x hx
    rcases List.mem_range'_1.mp hx with ⟨_, hxlt⟩
    have hxd : x < d := by omega
    simp only [decide_eq_true_eq, List.mem_cons, not_or]
    exact ⟨by omega, fun hxr => absurd (hrest x hxr) (by omega)⟩
  · refine List.filter_congr ?_
    intro x hx
    rcases List.mem_range'_1.mp hx with ⟨hxge, _⟩
    have hxd : d < x := by omega
    simp only [decide_eq_decide, List.mem_cons, not_or]
    constructor
    · exact fun h => h.2
    · exact fun h => ⟨by omega, h⟩

theorem sorted_bounded_length_le (dat : List Nat) (hs : List.Sorted (· < ·) dat) :
    ∀ lo N, (∀ x ∈ dat, lo ≤ x ∧ x < N) → dat.length ≤ N - lo := by
  induction dat with
  | nil => intro lo N _; simp
  | cons d rest ih =>
    intro lo N hb
    have hd := hb d (List.mem_cons_self d rest)
    have hrest : ∀ x ∈ rest, d + 1 ≤ x ∧ x < N := by
      intro x hx
      exact ⟨(List.pairwise_cons.mp hs).1 x hx, (hb x (List.mem_cons_of_mem d hx)).2⟩
    have := ih (List.pairwise_cons.mp hs).2 (d + 1) N hrest
    simp only [List.length_cons]
    omega

theorem compl_length (dat : List Nat) (hs : List.Sorted (· < ·) dat) :
    ∀ prev N, (∀ x ∈ dat, prev ≤ x ∧ x < N) →
      ((List.range' prev (N - prev)).filter (fun x => decide (x ∉ dat))).length =
        (N - prev) - dat.length := by
  induction dat with
  | nil =>
    intro prev N _
    rw [filter_not_mem_nil]
    simp [List.length_range']
  | cons d rest ih =>
    intro prev N hb
    have hd := hb d (List.mem_cons_self d rest)
    have hsorted_rest := (List.pairwise_cons.mp hs).2
    have hrest_gt : ∀ x ∈ rest, d < x := (List.pairwise_cons.mp hs).1
    have hrest_b : ∀ x ∈ rest, d + 1 ≤ x ∧ x < N := by
      intro x hx
      exact ⟨hrest_gt x hx, (hb x (List.mem_cons_of_mem d hx)).2⟩
    rw [filter_range'_cons prev N d rest hd.1 hd.2 hrest_gt]
    rw [List.length_append, List.length_range', ih hsorted_rest (d + 1) N hrest_b]
    have hlen := sorted_bounded_length_le rest hsorted_rest (d + 1) N hrest_b
    simp only [List.length_cons]
    omega

theorem compl_getD_originalIndex (dat : List Nat) (hs : List.Sorted (· < ·) dat) :
    ∀ prev N j, (∀ x ∈ dat, prev ≤ x ∧ x < N) → prev ≤ j →
      j - prev <
        ((List.range' prev (N - prev)).filter (fun x => decide (x ∉ dat))).length →
      ((List.range' prev (N - prev)).filter (fun x => decide (x ∉ dat))).getD (j - prev) 0 =
        originalIndex dat j := by
  induction dat with
  | nil =>
    intro prev N j _ hpj hlt
    rw [filter_not_mem_nil] at hlt ⊢
    rw [List.length_range'] at hlt
    rw [List.getD_eq_getElem _ _ (by rw [List.length_range']; exact hlt)]
    rw [List.getElem_range']
    simp only [originalIndex]
    omega
  | cons d rest ih =>
    intro prev N j hb hpj hlt
    have hd := hb d (List.mem_cons_self d rest)
    have hsorted_rest := (List.pairwise_cons.mp hs).2
    have hrest_gt : ∀ x ∈ rest, d < x := (List.pairwise_cons.mp hs).1
    have hrest_b : ∀ x ∈ rest, d + 1 ≤ x ∧ x < N := by
      intro x hx
      exact ⟨hrest_gt x hx, (hb x (List.mem_cons_of_mem d hx)).2⟩
    rw [filter_range'_cons prev N d rest hd.1 hd.2 hrest_gt] at hlt ⊢
    rcases lt_or_le j d with hjd | hdj
    · rw [List.getD_append _ _ _ _ (by rw [List.length_range']; omega)]
      rw [List.getD_eq_getElem _ _ (by rw [List.length_range']; omega)]
      rw [List.getElem_range']
      simp only [originalIndex, if_pos hjd]
      omega
    · rw [List.getD_append_right _ _ _ _ (by rw [List.length_range']; omega)]
      rw [List.length_range']
      rw [(by omega : j - prev - (d - prev) = (j + 1) - (d + 1))]
      rw [List.length_append, List.length_range'] at hlt
      have hrec := ih hsorted_rest (d + 1) N (j + 1) hrest_b (by omega) (by omega)
      rw [hrec]
      simp only [originalIndex, if_neg (by omega : ¬ j < d)]

theorem compressRanges_flatten (dat : List Nat) (hs : List.Sorted (· < ·) dat) :
    ∀ prev N, (∀ x ∈ dat, prev ≤ x ∧ x < N) →
      (compressRanges dat prev N).flatMap (fun r => List.range' r.1 (r.2 - r.1)) =
        (List.range' prev (N - prev)).filter (fun x => decide (x ∉ dat)) := by
  induction dat with
  | nil =>
    intro prev N _
    rw [filter_not_mem_nil]
    simp [compressRanges]
  | cons d rest ih =>
    intro prev N hb
    have hd := hb d (List.mem_cons_self d rest)
    have hsorted_rest := (List.pairwise_cons.mp hs).2
    have hrest_gt : ∀ x ∈ rest, d < x := (List.pairwise_cons.mp hs).1
    have hrest_b : ∀ x ∈ rest, d + 1 ≤ x ∧ x < N := by
      intro x hx
      exact ⟨hrest_gt x hx, (hb x (List.mem_cons_of_mem d hx)).2⟩
    rw [filter_range'_cons prev N d rest hd.1 hd.2 hrest_gt]
    simp only [compressRanges, List.flatMap_append]
    rw [ih hsorted_rest (d + 1) N hrest_b]
    congr 1
    by_cases hpd : prev < d
    · simp [hpd]
    · have : d - prev = 0 := by omega
      simp [hpd, this]

theorem compressRanges_bounds (dat : List Nat) :
    ∀ prev N, prev ≤ N → (∀ x ∈ dat, x < N) →
      ∀ r ∈ compressRanges dat prev N, r.1 ≤ r.2 ∧ r.2 ≤ N := by
  induction dat with
  | nil =>
    intro prev N hpN _ r hr
    simp only [compressRanges, List.mem_singleton] at hr
    subst hr
    exact ⟨hpN, le_rfl⟩
  | cons d rest ih =>
    intro prev N hpN hb r hr
    have hdN : d < N := hb d (List.mem_cons_self d rest)
    simp only [compressRanges, List.mem_append] at hr
    rcases hr with hr | hr
    · by_cases hpd : prev < d
      · rw [if_pos hpd] at hr
        simp only [List.mem_singleton] at hr
        subst hr
        exact ⟨by omega, by omega⟩
      · rw [if_neg hpd] at hr
        cases hr
    · exact ih (d + 1) N (by omega) (fun x hx => hb x (List.mem_cons_of_mem d hx)) r hr

theorem slice_eq_map_range' {K : Type} (keys : List K) (dflt : K) (i j : Nat)
    (hij : i ≤ j) (hj : j ≤ keys.length) :
    slice keys i j = (List.range' i (j - i)).map (fun t => keys.getD t dflt) := by
  refine List.ext_getElem ?_ ?_
  · simp [slice, List.length_take, List.length_drop, List.length_range']
    omega
  · intro n h1 h2
    simp only [slice] at h1 ⊢
    rw [List.getElem_take, List.getElem_drop]
    rw [List.getElem_map]
    rw [List.getElem_range']
    simp only [Nat.one_mul]
    rw [List.length_take, List.length_drop] at h1
    rw [List.getD_eq_getElem _ _ (by omega)]

/-- C10: however `MarkForRemoval` is called — in any order, with duplicate
indices — the newer-generation tracker slice is strictly increasing
(sorted, no duplicates) after every call, so the `Drop*` methods and
`OriginalIndex` can rely on sorted input without re-sorting. Every
intermediate state is itself a fold over a prefix of the calls, so this
statement covers the state after each call. -/
theorem markForRemoval_keeps_tracker_strictly_increasing (ops : List Nat) :
    List.Sorted (· < ·) (ops.foldl markForRemoval []) :=
  markForRemoval_foldl_sorted ops [] List.sorted_nil

theorem map_getD_range {K : Type} (keys : List K) (dflt : K) :
    (List.range keys.length).map (fun t => keys.getD t dflt) = keys := by
  refine List.ext_getElem ?_ ?_
  · simp
  · intro n h1 h2
    rw [List.getElem_map, List.getElem_range]
    rw [List.getD_eq_getElem _ _ h2]

/-- C6: for a tracker holding a strictly increasing set `D` of marked
indices, all smaller than `N = keys.length`, `DropKeys` returns exactly
the unmarked elements of `keys` in their original relative order — the
elements at the indices of `[0, N)` outside `D` — so its length is
`N - |D|`; and for every index `i` into that reduced array,
`OriginalIndex i` is the `i`-th smallest original index not in `D`. -/
theorem dropKeys_originalIndex_correct {K : Type} (keys : List K) (dflt : K)
    (dat : List Nat) (hsorted : List.Sorted (· < ·) dat)
    (hbound : ∀ d ∈ dat, d < keys.length) :
    dropKeys dat keys =
      Except.ok (((List.range keys.length).filter
          (fun x => decide (x ∉ dat))).map (fun t => keys.getD t dflt)) ∧
    (((List.range keys.length).filter (fun x => decide (x ∉ dat))).map
        (fun t => keys.getD t dflt)).length = keys.length - dat.length ∧
    ∀ i, i < keys.length - dat.length →
      originalIndex dat i =
        ((List.range keys.length).filter (fun x => decide (x ∉ dat))).getD i 0 := by
  have hb : ∀ x ∈ dat, 0 ≤ x ∧ x < keys.length := fun x hx => ⟨Nat.zero_le x, hbound x hx⟩
  have hrange : List.range' 0 (keys.length - 0) = List.range keys.length := by
    rw [Nat.sub_zero, ← List.range_eq_range']
  have hlen : ((List.range keys.length).filter
      (fun x => decide (x ∉ dat))).length = keys.length - dat.length := by
    have := compl_length dat hsorted 0 keys.length hb
    rw [hrange] at this
    simpa using this
  refine ⟨?_, by rw [List.length_map, hlen], ?_⟩
  · cases hlast : dat.getLast? with
    | none =>
      have hdat : dat = [] := List.getLast?_eq_none_iff.mp hlast
      subst hdat
      simp only [dropKeys, mustCompress, List.getLast?_nil, Except.map]
      rw [filter_not_mem_nil, map_getD_range]
    | some last =>
      have hlast_mem : last ∈ dat := List.mem_of_mem_getLast? hlast
      have hlastN : last < keys.length := hbound last hlast_mem
      have hN0 : keys.length ≠ 0 := by omega
      have hNle : ¬ (keys.length ≤ last) := by omega
      simp only [dropKeys, mustCompress, hlast, if_neg hN0, if_neg hNle, Except.map]
      congr 1
      have hflat := compressRanges_flatten dat hsorted 0 keys.length hb
      rw [hrange] at hflat
      calc (compressRanges dat 0 keys.length).flatMap (fun r => slice keys r.1 r.2)
          = (compressRanges dat 0 keys.length).flatMap
              (fun r => (List.range' r.1 (r.2 - r.1)).map (fun t => keys.getD t dflt)) := by
            refine List.flatMap_congr ?_
            intro r hr
            have hbnd := compressRanges_bounds dat 0 keys.length (Nat.zero_le _) hbound r hr
            exact slice_eq_map_range' keys dflt r.1 r.2 hbnd.1 hbnd.2
        _ = ((compressRanges dat 0 keys.length).flatMap
              (fun r => List.range' r.1 (r.2 - r.1))).map (fun t => keys.getD t dflt) :=
            (List.map_flatMap _ _ _).symm
        _ = ((List.range keys.length).filter (fun x => decide (x ∉ dat))).map
              (fun t => keys.getD t dflt) := by rw [hflat]
  · intro i hi
    have := compl_getD_originalIndex dat hsorted 0 keys.length i hb (Nat.zero_le i)
      (by rw [hrange, hlen]; omega)
    rw [hrange] at this
    simpa using this.symm

theorem dropKeys_originalIndex_correct_witness :
    (List.Sorted (· < ·) ([0, 4, 7] : List Nat) ∧
      ∀ d ∈ ([0, 4, 7] : List Nat), d < ([1, 2, 3, 4, 5, 6, 7, 8, 9] : List Nat).length) ∧
    dropKeys [0, 4, 7] [1, 2, 3, 4, 5, 6, 7, 8, 9] = Except.ok [2, 3, 4, 6, 7, 9] ∧
    originalIndex [0, 4, 7] 0 = 1 ∧ originalIndex [0, 4, 7] 1 = 2 ∧
    originalIndex [0, 4, 7] 2 = 3 ∧ originalIndex [0, 4, 7] 3 = 5 ∧
    originalIndex [0, 4, 7] 4 = 6 ∧ originalIndex [0, 4, 7] 5 = 8 := by
  have h := dropKeys_originalIndex_correct ([1, 2, 3, 4, 5, 6, 7, 8, 9] : List Nat) 0
    [0, 4, 7] (by decide) (by decide)
  refine ⟨⟨by decide, by decide⟩, h.1.trans (congrArg Except.ok (by decide)),
    ?_, ?_, ?_, ?_, ?_, ?_⟩
  all_goals exact (h.2.2 _ (by decide)).trans (by decide)

/-- C7 (amended): for a nonempty, strictly increasing tracker and a
positive array length `N`, the compaction step panics exactly when some
marked index is at least `N`. The original claim's "for every batch size
`N`" fails at `N = 0`: `mustCompress` returns before its bound check when
`N = 0`, so no panic occurs there even though every marked index is out
of bounds (see the counterexample). -/
theorem mustCompress_panics_iff (dat : List Nat) (hsorted : List.Sorted (· < ·) dat)
    (hne : dat ≠ []) (N : Nat) (hN : 0 < N) :
    (∃ msg, mustCompress dat N = Except.error msg) ↔ ∃ d ∈ dat, N ≤ d := by
  cases hlast : dat.getLast? with
  | none => exact absurd (List.getLast?_eq_none_iff.mp hlast) hne
  | some last =>
    have hlast_mem : last ∈ dat := List.mem_of_mem_getLast? hlast
    have hN0 : N ≠ 0 := by omega
    by_cases hcmp : N ≤ last
    · constructor
      · intro _
        exact ⟨last, hlast_mem, hcmp⟩
      · intro _
        refine ⟨"DroppedArgTracker has out of bound index", ?_⟩
        simp [mustCompress, hlast, hN0, hcmp]
    · constructor
      · intro ⟨msg, hmsg⟩
        simp [mustCompress, hlast, hN0, hcmp] at hmsg
      · intro ⟨d, hd, hNd⟩
        have : d ≤ last := sorted_le_getLast dat hsorted d last hd hlast
        omega

theorem mustCompress_panics_iff_witness :
    (List.Sorted (· < ·) ([2, 5] : List Nat) ∧ ([2, 5] : List Nat) ≠ [] ∧ 0 < 3) ∧
    ((∃ msg, mustCompress [2, 5] 3 = Except.error msg) ↔
      ∃ d ∈ ([2, 5] : List Nat), 3 ≤ d) :=
  ⟨⟨by decide, by decide, by decide⟩,
    mustCompress_panics_iff [2, 5] (by decide) (by decide) 3 (by decide)⟩

/-- C7 counterexample: the tracker `[0]` holds the marked index `0`, which
is at least the batch size `N = 0`; the claim demands a panic, but the
compaction returns early on `N = 0` before its bound check: `mustCompress`
succeeds without compressing, and `DropKeys` on the empty key array
returns it unchanged. -/
theorem mustCompress_zero_N_no_panic_cx :
    mustCompress [0] 0 = Except.ok none ∧
    dropKeys [0] ([] : List Nat) = Except.ok [] ∧
    ¬ ((∃ msg, mustCompress [0] 0 = Except.error msg) ↔
        ∃ d ∈ ([0] : List Nat), 0 ≤ d) := by
  refine ⟨rfl, rfl, ?_⟩
  intro hiff
  rcases hiff.mpr ⟨0, by simp, le_rfl⟩ with ⟨msg, hmsg⟩
  rw [show mustCompress [0] 0 = Except.ok none from rfl] at hmsg
  cases hmsg

end GaeDroppedArgTracker
